import Mathlib

/-!
Verification of the Studying-coach spaced-repetition engine.

The definitions below are a shallow embedding of the two source modules
`services/scheduler.py` and `services/contextual_memory.py`.  Python floats
are modelled by exact rationals (`ℚ`), Python ints by `Int`/`Nat`, timestamps
by rationals measured in days, and Python dict iteration order by lists kept
in insertion order.
-/

namespace StudyingCoach

/-! ### Basic SM-2 card scheduler (`services/scheduler.py`) -/

/-- Effective-factor lower bound for SM-2 (`EF_MIN` in the source). -/
def EF_MIN : ℚ := 13/10

/-- Effective-factor upper bound for SM-2 (`EF_MAX` in the source). -/
def EF_MAX : ℚ := 14/5

/-- The `srs` sub-dictionary of a card: ease factor, interval (days),
repetition count and due date (modelled as a day number). -/
structure Srs where
  EF : ℚ
  interval : Int
  reps : Nat
  due : Int
  deriving DecidableEq, Repr

/-- Default srs produced by `card.setdefault` in `update_srs`:
`{"EF": 2.5, "interval": 1, "reps": 0, "due": today}`. -/
def defaultSrs (today : Int) : Srs :=
  { EF := 5/2, interval := 1, reps := 0, due := today }

/-- Python `round` on a rational: round half to even (banker's rounding),
as Python 3's built-in `round` behaves on floats. -/
def pyRound (x : ℚ) : Int :=
  let f : Int := ⌊x⌋
  let frac : ℚ := x - f
  if frac < 1/2 then f
  else if 1/2 < frac then f + 1
  else if f % 2 = 0 then f else f + 1

/-- `update_srs(card, quality)` from `services/scheduler.py`, acting on the
(already-defaulted) srs record.  `today` is the current day number. -/
def update_srs (today : Int) (s : Srs) (quality : Nat) : Srs :=
  if quality < 3 then
    { EF := s.EF, interval := 1, reps := 0, due := today + 1 }
  else
    let reps := s.reps + 1
    let interval : Int :=
      if reps = 1 then 1
      else if reps = 2 then 6
      else pyRound (s.interval * s.EF)
    let ef := s.EF + (1/10 - (5 - (quality : ℚ)) * (8/100 + (5 - (quality : ℚ)) * (2/100)))
    let ef := max EF_MIN (min EF_MAX ef)
    { EF := ef, interval := interval, reps := reps, due := today + interval }

/-- Apply a sequence of `update_srs` calls; each call supplies its own
current day together with the review quality. -/
def applyReviews (s : Srs) (calls : List (Int × Nat)) : Srs :=
  calls.foldl (fun st c => update_srs c.1 st c.2) s

/-- Rounding never goes below the floor. -/
theorem floor_le_pyRound (x : ℚ) : ⌊x⌋ ≤ pyRound x := by
  unfold pyRound
  dsimp only
  split
  · exact le_refl _
  · split
    · exact Int.le_add_one (le_refl _)
    · split
      · exact le_refl _
      · exact Int.le_add_one (le_refl _)

/-- The SM-2 state invariant: ease factor in bounds and interval at least one day. -/
def SrsInv (s : Srs) : Prop :=
  EF_MIN ≤ s.EF ∧ s.EF ≤ EF_MAX ∧ 1 ≤ s.interval

instance (s : Srs) : Decidable (SrsInv s) := by
  unfold SrsInv; infer_instance

theorem srsInv_default (today : Int) : SrsInv (defaultSrs today) := by
  constructor
  · norm_num [defaultSrs, EF_MIN]
  · constructor
    · norm_num [defaultSrs, EF_MAX]
    · norm_num [defaultSrs]

/-- One `update_srs` call preserves the SM-2 invariant, for any quality. -/
theorem srsInv_update (today : Int) (s : Srs) (q : Nat) (h : SrsInv s) :
    SrsInv (update_srs today s q) := by
  obtain ⟨h1, h2, h3⟩ := h
  unfold update_srs
  split
  · exact ⟨h1, h2, le_refl _⟩
  · refine ⟨le_max_left _ _, ?_, ?_⟩
    · exact max_le (by norm_num [EF_MIN, EF_MAX]) (min_le_left _ _)
    · dsimp only
      split
      · norm_num
      · split
        · norm_num
        · calc (1 : Int) ≤ ⌊(s.interval : ℚ) * s.EF⌋ := by
                refine Int.le_floor.mpr ?_
                push_cast
                have hi : (1 : ℚ) ≤ (s.interval : ℚ) := by exact_mod_cast h3
                have he : (1 : ℚ) ≤ s.EF := le_trans (by norm_num [EF_MIN]) h1
                nlinarith
            _ ≤ pyRound ((s.interval : ℚ) * s.EF) := floor_le_pyRound _

theorem srsInv_applyReviews (s : Srs) (calls : List (Int × Nat)) (h : SrsInv s) :
    SrsInv (applyReviews s calls) := by
  induction calls generalizing s with
  | nil => exact h
  | cons c rest ih => exact ih _ (srsInv_update c.1 s c.2 h)

/-- C2: `updateReview` follows the SM-2 rules: quality < 3 resets repetitions
to 0 and interval to 1; quality ≥ 3 increments repetitions, applies the
1 / 6 / round(interval·ease) interval rule, and updates the ease factor by
`ease + (0.1 − (5−q)·(0.08 + (5−q)·0.02))` clamped to [1.3, 2.8]; in all cases
the new due date is today plus the new interval in days. -/
theorem C2_updateReview (today : Int) (s : Srs) (q : Nat) (hq : q ≤ 5) :
    (q < 3 → (update_srs today s q).reps = 0 ∧ (update_srs today s q).interval = 1) ∧
    (3 ≤ q →
      (update_srs today s q).reps = s.reps + 1 ∧
      (update_srs today s q).interval =
        (if s.reps + 1 = 1 then 1
         else if s.reps + 1 = 2 then 6
         else pyRound ((s.interval : ℚ) * s.EF)) ∧
      (update_srs today s q).EF =
        max (13/10) (min (14/5)
          (s.EF + (1/10 - (5 - (q : ℚ)) * (8/100 + (5 - (q : ℚ)) * (2/100)))))) ∧
    (update_srs today s q).due = today + (update_srs today s q).interval := by
  clear hq
  refine ⟨?_, ?_, ?_⟩
  · intro h
    simp only [update_srs, if_pos h]
    exact ⟨trivial, trivial⟩
  · intro h
    have h' : ¬ q < 3 := not_lt.mpr h
    simp only [update_srs, if_neg h']
    exact ⟨trivial, trivial, by norm_num [EF_MIN, EF_MAX]⟩
  · by_cases h : q < 3
    · simp only [update_srs, if_pos h]
    · simp only [update_srs, if_neg h]

/-- Witness for C2 at a concrete input. -/
theorem C2_witness :
    (4 ≤ 5) ∧ (update_srs 0 (defaultSrs 0) 4).due = 0 + (update_srs 0 (defaultSrs 0) 4).interval :=
  ⟨by decide, (C2_updateReview 0 (defaultSrs 0) 4 (by decide)).2.2⟩

/-- C3: starting from the default card state (ease 2.5, interval 1,
repetitions 0), after any sequence of `updateReview` calls with qualities in
0..5 the ease factor stays within [1.3, 2.8] and the interval stays ≥ 1. -/
theorem C3_srs_invariant (t0 : Int) (calls : List (Int × Nat))
    (hq : ∀ c ∈ calls, c.2 ≤ 5) :
    EF_MIN ≤ (applyReviews (defaultSrs t0) calls).EF ∧
    (applyReviews (defaultSrs t0) calls).EF ≤ EF_MAX ∧
    1 ≤ (applyReviews (defaultSrs t0) calls).interval := by
  clear hq
  exact srsInv_applyReviews _ calls (srsInv_default t0)

/-- Witness for C3 on a concrete review sequence. -/
theorem C3_witness :
    (∀ c ∈ [((0:Int), (5:Nat)), (1, 5), (7, 2), (8, 5)], c.2 ≤ 5) ∧
    EF_MIN ≤ (applyReviews (defaultSrs 0) [((0:Int), (5:Nat)), (1, 5), (7, 2), (8, 5)]).EF ∧
    (applyReviews (defaultSrs 0) [((0:Int), (5:Nat)), (1, 5), (7, 2), (8, 5)]).EF ≤ EF_MAX ∧
    1 ≤ (applyReviews (defaultSrs 0) [((0:Int), (5:Nat)), (1, 5), (7, 2), (8, 5)]).interval :=
  ⟨by decide, C3_srs_invariant 0 _ (by decide)⟩

/-- C10: a review with quality < 3 leaves the ease factor exactly as it was —
the ease-update formula and its clamp run only on the quality ≥ 3 branch. -/
theorem C10_fail_keeps_ease (today : Int) (s : Srs) (q : Nat) (h : q < 3) :
    (update_srs today s q).EF = s.EF := by
  simp only [update_srs, if_pos h]

/-- Witness for C10: even an out-of-bounds ease factor (5) passes through a
failed review unchanged, showing no clamp is applied. -/
theorem C10_witness :
    (0 < 3) ∧ (update_srs 0 { EF := 5, interval := 1, reps := 4, due := 0 } 0).EF = 5 :=
  ⟨by decide, C10_fail_keeps_ease 0 _ 0 (by decide)⟩

/-! ### Theme interleaver and due-card filter (`services/scheduler.py`) -/

/-- A flash card as far as scheduling is concerned: an opaque content id, an
optional `theme` field and an optional srs `due` date (day number).  Matches
the dict accesses `card.get("theme", "General")` and
`card.get("srs", {}).get("due", today)` in the source. -/
structure Card where
  id : Nat
  theme? : Option String
  due? : Option Int
  deriving DecidableEq, Repr

/-- `card.get("theme", "General")`. -/
def getTheme (c : Card) : String := c.theme?.getD "General"

/-- One per-theme queue of the `buckets` dict, in insertion order. -/
abbrev Bucket := String × List Card

/-- `buckets.setdefault(theme, []).append(card)`: append `c` to the queue of
theme `t`, creating the bucket at the end when the theme is new. -/
def addCard (bs : List Bucket) (t : String) (c : Card) : List Bucket :=
  match bs with
  | [] => [(t, [c])]
  | (u, q) :: rest => if u = t then (u, q ++ [c]) :: rest else (u, q) :: addCard rest t c

/-- The grouping loop of `interleave_by_theme`. -/
def buildBuckets (cards : List Card) : List Bucket :=
  cards.foldl (fun bs c => addCard bs (getTheme c) c) []

/-- One round-robin pass: the head of every non-empty bucket, in bucket
(first-appearance) order. -/
def bucketHeads (bs : List Bucket) : List Card := bs.filterMap (fun b => b.2.head?)

/-- The buckets after one round-robin pass popped every non-empty head. -/
def bucketTails (bs : List Bucket) : List Bucket := bs.map (fun b => (b.1, b.2.tail))

/-- Total number of cards still in the buckets (the `while any(...)` measure). -/
def totalLen (bs : List Bucket) : Nat := (bs.map (fun b => b.2.length)).sum

/-- The `while any(buckets.values())` loop, run with explicit fuel; each pass
removes at least one card, so `totalLen` initial fuel runs it to completion. -/
def roundRobinAux : Nat → List Bucket → List Card
  | 0, _ => []
  | fuel+1, bs =>
    if totalLen bs = 0 then [] else bucketHeads bs ++ roundRobinAux fuel (bucketTails bs)

/-- `interleave_by_theme(cards)` from `services/scheduler.py`. -/
def interleave_by_theme (cards : List Card) : List Card :=
  roundRobinAux (totalLen (buildBuckets cards)) (buildBuckets cards)

/-- `due_cards(db)` from `services/scheduler.py`: keep the cards whose due
date (defaulting to today) is not after today, then interleave by theme. -/
def due_cards (today : Int) (cards : List Card) : List Card :=
  interleave_by_theme (cards.filter (fun c => decide (c.due?.getD today ≤ today)))

/-- All cards sitting in a bucket list, bucket order then queue order. -/
def bucketCards : List Bucket → List Card
  | [] => []
  | b :: rest => b.2 ++ bucketCards rest

theorem totalLen_cons (b : Bucket) (rest : List Bucket) :
    totalLen (b :: rest) = b.2.length + totalLen rest := by
  simp [totalLen]

theorem bucketTails_cons (b : Bucket) (rest : List Bucket) :
    bucketTails (b :: rest) = (b.1, b.2.tail) :: bucketTails rest := rfl

theorem totalLen_eq_length_bucketCards (bs : List Bucket) :
    totalLen bs = (bucketCards bs).length := by
  induction bs with
  | nil => rfl
  | cons b rest ih =>
    rw [totalLen_cons, ih]
    simp [bucketCards]

theorem bucketCards_eq_nil_of_totalLen (bs : List Bucket) (h : totalLen bs = 0) :
    bucketCards bs = [] := by
  have := totalLen_eq_length_bucketCards bs
  rw [h] at this
  exact (List.eq_nil_of_length_eq_zero this.symm)

theorem totalLen_bucketTails_le (bs : List Bucket) :
    totalLen (bucketTails bs) ≤ totalLen bs := by
  induction bs with
  | nil => exact le_refl _
  | cons b rest ih =>
    rw [bucketTails_cons, totalLen_cons, totalLen_cons]
    have : b.2.tail.length ≤ b.2.length := by
      rw [List.length_tail]; exact Nat.sub_le _ _
    exact Nat.add_le_add this ih

theorem totalLen_bucketTails_lt (bs : List Bucket) (h : totalLen bs ≠ 0) :
    totalLen (bucketTails bs) < totalLen bs := by
  induction bs with
  | nil => exact absurd rfl h
  | cons b rest ih =>
    rcases b with ⟨t, q⟩
    rw [totalLen_cons] at h
    rw [bucketTails_cons, totalLen_cons, totalLen_cons]
    cases q with
    | nil =>
      simp only [List.length_nil, Nat.zero_add, List.tail_nil] at h ⊢
      exact ih h
    | cons c q' =>
      have h2 : totalLen (bucketTails rest) ≤ totalLen rest := totalLen_bucketTails_le rest
      simp only [List.tail_cons, List.length_cons]
      omega

theorem perm_heads_tails (bs : List Bucket) :
    (bucketHeads bs ++ bucketCards (bucketTails bs)).Perm (bucketCards bs) := by
  induction bs with
  | nil => exact List.Perm.refl _
  | cons b rest ih =>
    rcases b with ⟨t, q⟩
    cases q with
    | nil =>
      simpa [bucketHeads, bucketTails, bucketCards, List.filterMap_cons] using ih
    | cons c q' =>
      have e1 : bucketHeads ((t, c :: q') :: rest) = c :: bucketHeads rest := by
        simp [bucketHeads, List.filterMap_cons]
      have e2 : bucketTails ((t, c :: q') :: rest) = (t, q') :: bucketTails rest := rfl
      rw [e1, e2]
      show (c :: (bucketHeads rest ++ (q' ++ bucketCards (bucketTails rest)))).Perm
        (c :: (q' ++ bucketCards rest))
      refine List.Perm.cons c ?_
      have hswap : (bucketHeads rest ++ (q' ++ bucketCards (bucketTails rest))).Perm
          (q' ++ (bucketHeads rest ++ bucketCards (bucketTails rest))) := by
        rw [← List.append_assoc, ← List.append_assoc]
        exact List.Perm.append_right _ List.perm_append_comm
      exact hswap.trans (List.Perm.append_left _ ih)

theorem perm_roundRobinAux (fuel : Nat) (bs : List Bucket) (h : totalLen bs ≤ fuel) :
    (roundRobinAux fuel bs).Perm (bucketCards bs) := by
  induction fuel generalizing bs with
  | zero =>
    have : totalLen bs = 0 := Nat.le_zero.mp h
    rw [bucketCards_eq_nil_of_totalLen bs this]
    exact List.Perm.refl _
  | succ fuel ih =>
    by_cases h0 : totalLen bs = 0
    · rw [bucketCards_eq_nil_of_totalLen bs h0]
      simp [roundRobinAux, h0]
    · have hlt : totalLen (bucketTails bs) < totalLen bs := totalLen_bucketTails_lt bs h0
      have hf : totalLen (bucketTails bs) ≤ fuel := by omega
      simp only [roundRobinAux, if_neg h0]
      exact ((List.Perm.append_left _ (ih _ hf)).trans (perm_heads_tails bs))

theorem bucketCards_addCard (bs : List Bucket) (t : String) (c : Card) :
    (bucketCards (addCard bs t c)).Perm (bucketCards bs ++ [c]) := by
  induction bs with
  | nil => simp [addCard, bucketCards]
  | cons b rest ih =>
    rcases b with ⟨u, q⟩
    by_cases h : u = t
    · simp only [addCard, if_pos h, bucketCards, List.append_assoc]
      exact List.Perm.append_left _ (List.perm_append_comm)
    · simp only [addCard, if_neg h, bucketCards, List.append_assoc]
      exact List.Perm.append_left _ ih

theorem bucketCards_buildAux (cards : List Card) (acc : List Bucket) :
    (bucketCards (cards.foldl (fun bs c => addCard bs (getTheme c) c) acc)).Perm
      (bucketCards acc ++ cards) := by
  induction cards generalizing acc with
  | nil => simp
  | cons c cs ih =>
    simp only [List.foldl_cons]
    refine (ih (addCard acc (getTheme c) c)).trans ?_
    have h1 : (bucketCards (addCard acc (getTheme c) c) ++ cs).Perm
        ((bucketCards acc ++ [c]) ++ cs) :=
      List.Perm.append_right _ (bucketCards_addCard acc (getTheme c) c)
    refine h1.trans ?_
    simp

theorem perm_buildBuckets (cards : List Card) :
    (bucketCards (buildBuckets cards)).Perm cards := by
  simpa [bucketCards] using bucketCards_buildAux cards []

/-- The interleaver output is a permutation of its input. -/
theorem interleave_perm (cards : List Card) :
    (interleave_by_theme cards).Perm cards :=
  (perm_roundRobinAux _ _ (le_refl _)).trans (perm_buildBuckets cards)

/-- The themes of a card batch, in batch order. -/
def themesOf (l : List Card) : List String := l.map getTheme

/-- Checks the interleaving guarantee on a theme sequence: whenever two
consecutive entries agree, every entry from there on carries that same theme
(i.e. that theme is the only one with remaining items). -/
def noSameRun : List String → Bool
  | a :: b :: rest => (!(a == b) || (b :: rest).all (fun x => x == a)) && noSameRun (b :: rest)
  | _ => true

/-- Themes of the non-empty buckets, in bucket order. -/
def neThemes : List Bucket → List String
  | [] => []
  | (t, q) :: rest => if q.isEmpty then neThemes rest else t :: neThemes rest

/-- Every card sits in the bucket of its own theme. -/
def Coherent (bs : List Bucket) : Prop := ∀ b ∈ bs, ∀ c ∈ b.2, getTheme c = b.1

/-- The theme keys of the bucket list. -/
def keys (bs : List Bucket) : List String := bs.map Prod.fst

theorem themesOf_bucketHeads (bs : List Bucket) (hco : Coherent bs) :
    themesOf (bucketHeads bs) = neThemes bs := by
  induction bs with
  | nil => rfl
  | cons b rest ih =>
    rcases b with ⟨t, q⟩
    have hco' : Coherent rest := fun b hb => hco b (List.mem_cons_of_mem _ hb)
    cases q with
    | nil =>
      simpa [bucketHeads, themesOf, neThemes, List.filterMap_cons] using ih hco'
    | cons c q' =>
      have hc : getTheme c = t :=
        hco (t, c :: q') (List.mem_cons_self _ _) c (List.mem_cons_self _ _)
      have e : neThemes ((t, c :: q') :: rest) = t :: neThemes rest := by simp [neThemes]
      rw [e, ← ih hco']
      simp [themesOf, bucketHeads, List.filterMap_cons, hc]

theorem neThemes_sublist (bs : List Bucket) : (neThemes bs).Sublist (keys bs) := by
  induction bs with
  | nil => exact List.Sublist.refl _
  | cons b rest ih =>
    rcases b with ⟨t, q⟩
    cases q with
    | nil => exact List.Sublist.trans (by simpa [neThemes] using ih) (List.sublist_cons_self _ _)
    | cons c q' =>
      simpa [neThemes, keys] using List.Sublist.cons₂ t ih

theorem neThemes_eq_nil_iff (bs : List Bucket) :
    neThemes bs = [] ↔ totalLen bs = 0 := by
  induction bs with
  | nil => simp [neThemes, totalLen]
  | cons b rest ih =>
    rcases b with ⟨t, q⟩
    cases q with
    | nil => simpa [neThemes, totalLen_cons] using ih
    | cons c q' => simp [neThemes, totalLen_cons]

theorem keys_bucketTails (bs : List Bucket) : keys (bucketTails bs) = keys bs := by
  induction bs with
  | nil => rfl
  | cons b rest ih => simpa [keys, bucketTails] using ih

theorem coherent_bucketTails (bs : List Bucket) (hco : Coherent bs) :
    Coherent (bucketTails bs) := by
  intro b hb c hc
  simp only [bucketTails, List.mem_map] at hb
  obtain ⟨b', hb', rfl⟩ := hb
  exact hco b' hb' c (List.mem_of_mem_tail hc)

theorem buckets_empty_of_totalLen (bs : List Bucket) (h : totalLen bs = 0) :
    ∀ b ∈ bs, b.2 = [] := by
  intro b hb
  have := (List.sum_eq_zero_iff).mp h (b.2.length) (List.mem_map_of_mem _ hb)
  exact List.eq_nil_of_length_eq_zero this

/-- The crucial boundary fact: if the last non-empty bucket of a pass and the
first non-empty bucket of the next pass carry the same theme, then after the
pass that theme's bucket is the only non-empty one. -/
theorem only_theme_left (bs : List Bucket) (a : String)
    (hnd : (keys bs).Nodup)
    (hlast : (neThemes bs).getLast? = some a)
    (hfirst : (neThemes (bucketTails bs)).head? = some a) :
    ∀ b ∈ bucketTails bs, b.2 ≠ [] → b.1 = a := by
  induction bs with
  | nil => simp [neThemes] at hlast
  | cons b rest ih =>
    rcases b with ⟨t, q⟩
    have hnd' : (keys rest).Nodup := (List.nodup_cons.mp hnd).2
    have htmem : t ∉ keys rest := (List.nodup_cons.mp hnd).1
    cases q with
    | nil =>
      -- empty head bucket contributes to nothing
      have hlast' : (neThemes rest).getLast? = some a := by
        simpa [neThemes] using hlast
      have hfirst' : (neThemes (bucketTails rest)).head? = some a := by
        simpa [neThemes, bucketTails_cons] using hfirst
      intro b hb hne
      rcases List.mem_cons.mp hb with rfl | hb'
      · exact absurd rfl hne
      · exact ih hnd' hlast' hfirst' b hb' hne
    | cons c q' =>
      have hne : neThemes ((t, c :: q') :: rest) = t :: neThemes rest := by
        simp [neThemes]
      rw [hne] at hlast
      cases hrest : neThemes rest with
      | nil =>
        -- every bucket of `rest` is already empty; the head bucket must hold `a`
        rw [hrest, List.getLast?_singleton] at hlast
        have hta : t = a := by injection hlast
        have hrest0 : totalLen rest = 0 := (neThemes_eq_nil_iff rest).mp hrest
        have hrestE := buckets_empty_of_totalLen rest hrest0
        intro b hb hbne
        rw [bucketTails_cons] at hb
        rcases List.mem_cons.mp hb with rfl | hb'
        · exact hta
        · exfalso
          apply hbne
          simp only [bucketTails, List.mem_map] at hb'
          obtain ⟨b', hb', rfl⟩ := hb'
          rw [hrestE b' hb']
          rfl
      | cons u l =>
        rw [hrest, List.getLast?_cons_cons, ← hrest] at hlast
        have hamem : a ∈ neThemes rest := by
          rw [hrest]
          rw [hrest] at hlast
          have : a ∈ (u :: l).getLast? := by rw [hlast]; rfl
          rcases List.mem_getLast?_eq_getLast this with ⟨hh, rfl⟩
          exact List.getLast_mem hh
        have haneq : a ≠ t := by
          intro h
          exact htmem (h ▸ (neThemes_sublist rest).mem hamem)
        rw [bucketTails_cons] at hfirst
        simp only [List.tail_cons] at hfirst
        cases hq' : q'.isEmpty with
        | false =>
          exfalso
          apply haneq
          have : neThemes ((t, q') :: bucketTails rest) = t :: neThemes (bucketTails rest) := by
            simp [neThemes, hq']
          rw [this] at hfirst
          simp only [List.head?_cons, Option.some.injEq] at hfirst
          exact hfirst.symm
        | true =>
          have hq'nil : q' = [] := List.isEmpty_iff.mp hq'
          have hfirst' : (neThemes (bucketTails rest)).head? = some a := by
            have : neThemes ((t, q') :: bucketTails rest) = neThemes (bucketTails rest) := by
              simp [neThemes, hq']
            rwa [this] at hfirst
          intro b hb hbne
          rw [bucketTails_cons] at hb
          rcases List.mem_cons.mp hb with rfl | hb'
          · exact absurd (by simpa using hq'nil) hbne
          · exact ih hnd' hlast hfirst' b hb' hbne

/-- If one theme's bucket is the only non-empty one, every card the
round-robin loop still emits carries that theme. -/
theorem roundRobinAux_mono (fuel : Nat) (bs : List Bucket) (a : String)
    (hco : Coherent bs) (hone : ∀ b ∈ bs, b.2 ≠ [] → b.1 = a) :
    ∀ c ∈ roundRobinAux fuel bs, getTheme c = a := by
  induction fuel generalizing bs with
  | zero => intro c hc; simp [roundRobinAux] at hc
  | succ fuel ih =>
    intro c hc
    by_cases h0 : totalLen bs = 0
    · simp [roundRobinAux, h0] at hc
    · simp only [roundRobinAux, if_neg h0, List.mem_append] at hc
      rcases hc with hc | hc
      · obtain ⟨b, hb, hhd⟩ := List.mem_filterMap.mp hc
        have hcb : c ∈ b.2 := List.mem_of_mem_head? (by rw [hhd]; rfl)
        have hbne : b.2 ≠ [] := by
          intro h; rw [h] at hcb; simp at hcb
        rw [hco b hb c hcb]
        exact hone b hb hbne
      · refine ih (bucketTails bs) (coherent_bucketTails bs hco) ?_ c hc
        intro b hb hbne
        simp only [bucketTails, List.mem_map] at hb
        obtain ⟨b', hb', rfl⟩ := hb
        have : b'.2 ≠ [] := by
          intro h
          apply hbne
          simp [h]
        exact hone b' hb' this

theorem head?_themes_roundRobinAux (fuel : Nat) (bs : List Bucket)
    (hf : totalLen bs ≤ fuel) (hco : Coherent bs) :
    (themesOf (roundRobinAux fuel bs)).head? = (neThemes bs).head? := by
  cases fuel with
  | zero =>
    have h0 : totalLen bs = 0 := Nat.le_zero.mp hf
    have := (neThemes_eq_nil_iff bs).mpr h0
    simp [roundRobinAux, themesOf, this]
  | succ fuel =>
    by_cases h0 : totalLen bs = 0
    · have := (neThemes_eq_nil_iff bs).mpr h0
      simp [roundRobinAux, h0, themesOf, this]
    · simp only [roundRobinAux, if_neg h0, themesOf, List.map_append, List.head?_append]
      rw [show List.map getTheme (bucketHeads bs) = themesOf (bucketHeads bs) from rfl]
      rw [themesOf_bucketHeads bs hco]
      cases hne : neThemes bs with
      | nil => exact absurd ((neThemes_eq_nil_iff bs).mp hne) h0
      | cons u l => rfl

/-- Appending lists keeps the guarantee when the left part has pairwise
distinct entries and any boundary repetition forces the right part constant. -/
theorem noSameRun_append (x y : List String) (hx : x.Nodup)
    (hy : noSameRun y = true)
    (hb : ∀ a, x.getLast? = some a → y.head? = some a →
      y.all (fun s => s == a) = true) :
    noSameRun (x ++ y) = true := by
  induction x with
  | nil => simpa using hy
  | cons a x' ih =>
    cases x' with
    | nil =>
      cases y with
      | nil => rfl
      | cons b rest =>
        have h2 : noSameRun (b :: rest) = true := hy
        simp only [List.singleton_append, noSameRun, Bool.and_eq_true]
        refine ⟨?_, h2⟩
        by_cases hab : a = b
        · have := hb a (List.getLast?_singleton a) (by simp [hab])
          simp [this]
        · simp [hab]
    | cons a2 x'' =>
      have hnd := List.nodup_cons.mp hx
      have ha2 : a ≠ a2 := fun h => hnd.1 (h ▸ List.mem_cons_self ..)
      have hrec : noSameRun ((a2 :: x'') ++ y) = true := by
        refine ih hnd.2 ?_
        intro b hlast hhead
        refine hb b ?_ hhead
        rw [List.getLast?_cons_cons]
        exact hlast
      simp only [List.cons_append, noSameRun, Bool.and_eq_true] at hrec ⊢
      refine ⟨?_, hrec⟩
      simp [ha2]

/-- The round-robin loop never emits two consecutive cards of the same theme
unless that theme's bucket is the only non-empty one left. -/
theorem noSameRun_roundRobinAux (fuel : Nat) (bs : List Bucket)
    (hf : totalLen bs ≤ fuel) (hco : Coherent bs) (hnd : (keys bs).Nodup) :
    noSameRun (themesOf (roundRobinAux fuel bs)) = true := by
  induction fuel generalizing bs with
  | zero => rfl
  | succ fuel ih =>
    by_cases h0 : totalLen bs = 0
    · simp [roundRobinAux, h0, themesOf, noSameRun]
    · have hlt : totalLen (bucketTails bs) < totalLen bs := totalLen_bucketTails_lt bs h0
      have hf' : totalLen (bucketTails bs) ≤ fuel := by omega
      have hco' := coherent_bucketTails bs hco
      have hnd' : (keys (bucketTails bs)).Nodup := by rw [keys_bucketTails]; exact hnd
      simp only [roundRobinAux, if_neg h0, themesOf, List.map_append]
      refine noSameRun_append _ _ ?_ ?_ ?_
      · rw [show List.map getTheme (bucketHeads bs) = themesOf (bucketHeads bs) from rfl,
          themesOf_bucketHeads bs hco]
        exact (neThemes_sublist bs).nodup hnd
      · exact ih (bucketTails bs) hf' hco' hnd'
      · intro a hlast hhead
        rw [show List.map getTheme (bucketHeads bs) = themesOf (bucketHeads bs) from rfl,
          themesOf_bucketHeads bs hco] at hlast
        rw [show List.map getTheme (roundRobinAux fuel (bucketTails bs)) =
            themesOf (roundRobinAux fuel (bucketTails bs)) from rfl] at hhead ⊢
        rw [head?_themes_roundRobinAux fuel (bucketTails bs) hf' hco'] at hhead
        have honly := only_theme_left bs a hnd hlast hhead
        have hmono := roundRobinAux_mono fuel (bucketTails bs) a hco' honly
        rw [List.all_eq_true]
        intro s hs
        simp only [themesOf, List.mem_map] at hs
        obtain ⟨c, hc, rfl⟩ := hs
        exact beq_iff_eq.mpr (hmono c hc)

theorem coherent_addCard (bs : List Bucket) (t : String) (c : Card)
    (hco : Coherent bs) (hc : getTheme c = t) : Coherent (addCard bs t c) := by
  induction bs with
  | nil =>
    intro b hb c' hc'
    simp only [addCard, List.mem_singleton] at hb
    subst hb
    simp only [List.mem_singleton] at hc'
    subst hc'
    exact hc
  | cons b rest ih =>
    rcases b with ⟨u, q⟩
    have hco' : Coherent rest := fun b hb => hco b (List.mem_cons_of_mem _ hb)
    by_cases h : u = t
    · subst h
      simp only [addCard, if_pos rfl]
      intro b hb c' hc'
      rcases List.mem_cons.mp hb with rfl | hb'
      · simp only at hc'
        rcases List.mem_append.mp hc' with h1 | h1
        · exact hco (u, q) (List.mem_cons_self _ _) c' h1
        · simp only [List.mem_singleton] at h1
          subst h1
          exact hc
      · exact hco' b hb' c' hc'
    · simp only [addCard, if_neg h]
      intro b hb c' hc'
      rcases List.mem_cons.mp hb with rfl | hb'
      · exact hco (u, q) (List.mem_cons_self _ _) c' hc'
      · exact ih hco' b hb' c' hc'

theorem keys_addCard (bs : List Bucket) (t : String) (c : Card) :
    keys (addCard bs t c) = if t ∈ keys bs then keys bs else keys bs ++ [t] := by
  induction bs with
  | nil => simp [addCard, keys]
  | cons b rest ih =>
    rcases b with ⟨u, q⟩
    by_cases h : u = t
    · subst h
      have hmem : u ∈ keys ((u, q) :: rest) := by simp [keys]
      simp only [addCard, if_pos rfl, if_pos hmem]
      simp only [if_true]
      rfl
    · have hk : keys ((u, q) :: addCard rest t c) = u :: keys (addCard rest t c) := rfl
      have hk2 : keys ((u, q) :: rest) = u :: keys rest := rfl
      simp only [addCard, if_neg h, hk, hk2, ih]
      by_cases hmem : t ∈ keys rest
      · rw [if_pos hmem, if_pos (by simp [List.mem_cons, hmem])]
      · have hnotin : t ∉ (u :: keys rest) := by
          intro hcon
          rcases List.mem_cons.mp hcon with rfl | hcon'
          · exact h rfl
          · exact hmem hcon'
        rw [if_neg hmem, if_neg hnotin, List.cons_append]

theorem nodup_keys_addCard (bs : List Bucket) (t : String) (c : Card)
    (hnd : (keys bs).Nodup) : (keys (addCard bs t c)).Nodup := by
  rw [keys_addCard]
  by_cases h : t ∈ keys bs
  · simpa [h] using hnd
  · simp only [if_neg h, List.nodup_append]
    refine ⟨hnd, List.nodup_singleton t, ?_⟩
    intro a ha hat
    simp only [List.mem_singleton] at hat
    subst hat
    exact h ha

theorem buildBuckets_invAux (cards : List Card) (acc : List Bucket)
    (hco : Coherent acc) (hnd : (keys acc).Nodup) :
    Coherent (cards.foldl (fun bs c => addCard bs (getTheme c) c) acc) ∧
    (keys (cards.foldl (fun bs c => addCard bs (getTheme c) c) acc)).Nodup := by
  induction cards generalizing acc with
  | nil => exact ⟨hco, hnd⟩
  | cons c cs ih =>
    simp only [List.foldl_cons]
    exact ih _ (coherent_addCard acc (getTheme c) c hco rfl)
      (nodup_keys_addCard acc (getTheme c) c hnd)

theorem buildBuckets_coherent (cards : List Card) : Coherent (buildBuckets cards) :=
  (buildBuckets_invAux cards [] (by intro b hb; simp at hb) (by simp [keys])).1

theorem buildBuckets_nodup (cards : List Card) : (keys (buildBuckets cards)).Nodup :=
  (buildBuckets_invAux cards [] (by intro b hb; simp at hb) (by simp [keys])).2

/-- C5: `interleaveByTheme` returns a permutation of its input (same multiset
of cards), no theme contributes two consecutive items unless it is the only
theme with remaining items (whenever two consecutive output cards share a
theme, the whole remaining output is that theme), and on the two-theme input
[A,A,B,B,B] it returns exactly [A,B,A,B,B]. -/
theorem C5_interleave :
    (∀ cards : List Card,
      (interleave_by_theme cards).Perm cards ∧
      noSameRun (themesOf (interleave_by_theme cards)) = true) ∧
    interleave_by_theme
        [⟨1, some "A", none⟩, ⟨2, some "A", none⟩, ⟨3, some "B", none⟩,
         ⟨4, some "B", none⟩, ⟨5, some "B", none⟩] =
      [⟨1, some "A", none⟩, ⟨3, some "B", none⟩, ⟨2, some "A", none⟩,
       ⟨4, some "B", none⟩, ⟨5, some "B", none⟩] := by
  refine ⟨fun cards => ⟨interleave_perm cards, ?_⟩, by decide⟩
  exact noSameRun_roundRobinAux _ _ (le_refl _) (buildBuckets_coherent cards)
    (buildBuckets_nodup cards)

/-- C6: `dueCards` returns exactly the cards whose (effective) due date is at
most today — as a multiset: the output is a permutation of the filtered
input (the interleaver only reorders it). -/
theorem C6_dueCards (today : Int) (cards : List Card) :
    (due_cards today cards).Perm
      (cards.filter (fun c => decide (c.due?.getD today ≤ today))) :=
  interleave_perm _

/-! ### Contextual memory manager (`services/contextual_memory.py`)

Timestamps are rationals measured in days; `(a - b).days` of Python
timedeltas is the floor of the day difference. -/

/-- `KnowledgeState` enum. -/
inductive KnowledgeState where
  | unknown | learning | practiced | mastered | expert
  deriving DecidableEq, Repr

/-- `LearningPhase` enum. -/
inductive LearningPhase where
  | acquisition | consolidation | retention | transfer
  deriving DecidableEq, Repr

/-- The `ConceptMemory` dataclass. -/
structure ConceptMemory where
  concept_id : String
  concept_name : String
  knowledge_state : KnowledgeState
  learning_phase : LearningPhase
  memory_strength : ℚ
  confidence_level : ℚ
  first_exposure : ℚ
  last_review : ℚ
  next_review : ℚ
  review_count : Nat
  correct_answers : Nat
  total_attempts : Nat
  average_response_time : ℚ
  decay_rate : ℚ
  difficulty_adjustment : ℚ
  prerequisites : List String
  dependents : List String
  learning_contexts : List String
  associated_materials : List String
  deriving DecidableEq, Repr

/-- `ConceptMemory.accuracy_rate`. -/
def accuracy_rate (m : ConceptMemory) : ℚ :=
  if m.total_attempts = 0 then 0 else (m.correct_answers : ℚ) / (m.total_attempts : ℚ)

/-- One learning interaction as fed to `record_learning_interaction`. -/
structure Interaction where
  is_correct : Bool
  response_time : ℚ
  confidence : ℚ
  context : String
  deriving DecidableEq, Repr

/-- `_update_memory_strength`. -/
def update_memory_strength (m : ConceptMemory) (is_correct : Bool) (confidence : ℚ) : ℚ :=
  if is_correct then
    min 1 (m.memory_strength + (2/10) * (1 - m.memory_strength) * confidence)
  else
    max 0 (m.memory_strength - (15/100) * confidence)

/-- `_update_knowledge_state`. -/
def update_knowledge_state (m : ConceptMemory) : KnowledgeState :=
  let accuracy := accuracy_rate m
  let attempts := m.total_attempts
  let strength := m.memory_strength
  if attempts < 3 then .learning
  else if 9/10 ≤ accuracy ∧ 8/10 ≤ strength ∧ 10 ≤ attempts then .expert
  else if 8/10 ≤ accuracy ∧ 7/10 ≤ strength ∧ 5 ≤ attempts then .mastered
  else if 6/10 ≤ accuracy ∧ 5/10 ≤ strength then .practiced
  else .learning

/-- `_update_learning_phase`. -/
def update_learning_phase (now : ℚ) (m : ConceptMemory) : LearningPhase :=
  let days_since_first : Int := ⌊now - m.first_exposure⌋
  if m.review_count ≤ 2 then .acquisition
  else if days_since_first ≤ 7 then .consolidation
  else if m.knowledge_state = .mastered ∨ m.knowledge_state = .expert then .transfer
  else .retention

/-- The phase multipliers of `_calculate_next_review_enhanced`. -/
def phase_multiplier : LearningPhase → ℚ
  | .acquisition => 1/2
  | .consolidation => 1
  | .retention => 3/2
  | .transfer => 2

/-- `_calculate_next_review_enhanced`. -/
def calculate_next_review_enhanced (now : ℚ) (m : ConceptMemory) (is_correct : Bool) : ℚ :=
  let base_interval : ℚ := 1
  let strength_multiplier := 1 + m.memory_strength * 2
  let accuracy_multiplier := 1 + accuracy_rate m
  let pm := phase_multiplier m.learning_phase
  let difficulty_multiplier := 1 / m.difficulty_adjustment
  let interval :=
    if is_correct then
      base_interval * strength_multiplier * accuracy_multiplier * pm *
        difficulty_multiplier * (13/10) ^ m.review_count
    else
      base_interval * (1/2)
  let interval := max (1/10) (min 365 interval)
  now + interval

/-- `_calculate_next_review` (simple fallback used at memory creation). -/
def calculate_next_review (current_time : ℚ) (memory_strength : ℚ) (attempts : Nat) : ℚ :=
  let base_interval : ℚ := 1
  let strength_multiplier := 1 + memory_strength * 3
  let interval := base_interval * strength_multiplier * (3/2) ^ attempts
  let interval := max (1/10) (min 30 interval)
  current_time + interval

/-- `_update_confidence`. -/
def update_confidence (current_confidence reported_confidence : ℚ) (is_correct : Bool) : ℚ :=
  if is_correct then
    min 1 ((3/10) * reported_confidence + (1 - 3/10) * current_confidence)
  else
    min 1 (max (1/10) (current_confidence - (2/10) * reported_confidence))

/-- `_update_forgetting_curve` (mutates `decay_rate` and
`difficulty_adjustment`). -/
def update_forgetting_curve (m : ConceptMemory) (is_correct : Bool) (response_time : ℚ) :
    ConceptMemory :=
  let decay :=
    if is_correct then max (1/100) (m.decay_rate * (95/100))
    else min (1/2) (m.decay_rate * (11/10))
  let avg := m.average_response_time
  let diff :=
    if avg * (3/2) < response_time then min 2 (m.difficulty_adjustment * (11/10))
    else if response_time < avg * (7/10) then max (1/2) (m.difficulty_adjustment * (95/100))
    else m.difficulty_adjustment
  { m with decay_rate := decay, difficulty_adjustment := diff }

/-- The update part of `record_learning_interaction`, applied to an existing
(or just-created) concept memory, in source statement order. -/
def recordStep (now : ℚ) (inp : Interaction) (m0 : ConceptMemory) : ConceptMemory :=
  let m1 := { m0 with
    total_attempts := m0.total_attempts + 1,
    correct_answers := m0.correct_answers + (if inp.is_correct then 1 else 0) }
  let m2 := { m1 with average_response_time :=
    (3/10) * inp.response_time + (1 - 3/10) * m1.average_response_time }
  let m3 := { m2 with memory_strength := update_memory_strength m2 inp.is_correct inp.confidence }
  let m4 := { m3 with knowledge_state := update_knowledge_state m3 }
  let m5 := { m4 with learning_phase := update_learning_phase now m4 }
  let m6 := { m5 with next_review := calculate_next_review_enhanced now m5 inp.is_correct }
  let m7 := { m6 with last_review := now }
  let m8 := { m7 with review_count := m7.review_count + 1 }
  let m9 := { m8 with confidence_level :=
    (update_confidence m8.confidence_level inp.confidence inp.is_correct) }
  let m10 := { m9 with learning_contexts :=
    (if inp.context ≠ "" ∧ inp.context ∉ m9.learning_contexts
     then m9.learning_contexts ++ [inp.context] else m9.learning_contexts) }
  update_forgetting_curve m10 inp.is_correct inp.response_time

/-- The concept memory created on first exposure, with the documented
defaults (strength 0.1, decay_rate 0.1, difficulty_adjustment 1.0). -/
def createMemory (now : ℚ) (concept_id concept_name : String) (inp : Interaction) :
    ConceptMemory :=
  { concept_id := concept_id
    concept_name := concept_name
    knowledge_state := .learning
    learning_phase := .acquisition
    memory_strength := 1/10
    confidence_level := inp.confidence
    first_exposure := now
    last_review := now
    next_review := calculate_next_review now (1/10) 1
    review_count := 0
    correct_answers := 0
    total_attempts := 0
    average_response_time := inp.response_time
    decay_rate := 1/10
    difficulty_adjustment := 1
    prerequisites := []
    dependents := []
    learning_contexts := if inp.context ≠ "" then [inp.context] else []
    associated_materials := [] }

/-- A sequence of recorded interactions, each with its own current time. -/
def applyInteractions (m : ConceptMemory) (steps : List (ℚ × Interaction)) : ConceptMemory :=
  steps.foldl (fun mem s => recordStep s.1 s.2 mem) m

/-- The bounds the spec asserts over the evolving memory fields. -/
def MemBounds (m : ConceptMemory) : Prop :=
  0 ≤ m.memory_strength ∧ m.memory_strength ≤ 1 ∧
  0 ≤ m.confidence_level ∧ m.confidence_level ≤ 1 ∧
  1/100 ≤ m.decay_rate ∧ m.decay_rate ≤ 1/2 ∧
  1/2 ≤ m.difficulty_adjustment ∧ m.difficulty_adjustment ≤ 2

instance (m : ConceptMemory) : Decidable (MemBounds m) := by
  unfold MemBounds; infer_instance

theorem update_memory_strength_bounds (m : ConceptMemory) (b : Bool) (c : ℚ)
    (hs0 : 0 ≤ m.memory_strength) (hs1 : m.memory_strength ≤ 1)
    (hc0 : 0 ≤ c) (hc1 : c ≤ 1) :
    0 ≤ update_memory_strength m b c ∧ update_memory_strength m b c ≤ 1 := by
  unfold update_memory_strength
  cases b with
  | true =>
    simp only [if_true]
    constructor
    · refine le_min (by norm_num) ?_
      nlinarith
    · exact min_le_left _ _
  | false =>
    simp only [if_neg Bool.false_ne_true]
    constructor
    · exact le_max_left _ _
    · refine max_le (by norm_num) ?_
      nlinarith

theorem update_confidence_bounds (cur rep : ℚ) (b : Bool)
    (h0 : 0 ≤ cur) (h1 : cur ≤ 1) (hr0 : 0 ≤ rep) (hr1 : rep ≤ 1) :
    0 ≤ update_confidence cur rep b ∧ update_confidence cur rep b ≤ 1 := by
  unfold update_confidence
  cases b with
  | true =>
    simp only [if_true]
    refine ⟨le_min (by norm_num) (by nlinarith), min_le_left _ _⟩
  | false =>
    simp only [if_neg Bool.false_ne_true]
    refine ⟨le_min (by norm_num) (le_trans (by norm_num) (le_max_left _ _)), min_le_left _ _⟩

theorem update_forgetting_curve_decay_bounds (m : ConceptMemory) (b : Bool) (rt : ℚ)
    (h0 : 1/100 ≤ m.decay_rate) (h1 : m.decay_rate ≤ 1/2) :
    1/100 ≤ (update_forgetting_curve m b rt).decay_rate ∧
    (update_forgetting_curve m b rt).decay_rate ≤ 1/2 := by
  unfold update_forgetting_curve
  cases b with
  | true =>
    simp only [if_true]
    exact ⟨le_max_left _ _, max_le (by norm_num) (by nlinarith)⟩
  | false =>
    simp only [if_neg Bool.false_ne_true]
    exact ⟨le_min (by norm_num) (by nlinarith), min_le_left _ _⟩

theorem update_forgetting_curve_diff_bounds (m : ConceptMemory) (b : Bool) (rt : ℚ)
    (h0 : 1/2 ≤ m.difficulty_adjustment) (h1 : m.difficulty_adjustment ≤ 2) :
    1/2 ≤ (update_forgetting_curve m b rt).difficulty_adjustment ∧
    (update_forgetting_curve m b rt).difficulty_adjustment ≤ 2 := by
  unfold update_forgetting_curve
  simp only
  split
  · exact ⟨le_min (by norm_num) (by nlinarith), min_le_left _ _⟩
  · split
    · exact ⟨le_max_left _ _, max_le (by norm_num) (by nlinarith)⟩
    · exact ⟨h0, h1⟩

theorem update_forgetting_curve_strength (m : ConceptMemory) (b : Bool) (rt : ℚ) :
    (update_forgetting_curve m b rt).memory_strength = m.memory_strength := rfl

theorem update_forgetting_curve_confidence (m : ConceptMemory) (b : Bool) (rt : ℚ) :
    (update_forgetting_curve m b rt).confidence_level = m.confidence_level := rfl

/-- One recorded interaction with in-range confidence preserves all four
field bounds. -/
theorem memBounds_recordStep (now : ℚ) (inp : Interaction) (m : ConceptMemory)
    (hm : MemBounds m) (hc0 : 0 ≤ inp.confidence) (hc1 : inp.confidence ≤ 1) :
    MemBounds (recordStep now inp m) := by
  obtain ⟨h1, h2, h3, h4, h5, h6, h7, h8⟩ := hm
  unfold recordStep
  dsimp only
  refine ⟨?_, ?_, ?_, ?_, ?_, ?_, ?_, ?_⟩
  · rw [update_forgetting_curve_strength]
    refine (update_memory_strength_bounds _ inp.is_correct inp.confidence ?_ ?_ hc0 hc1).1
    · exact h1
    · exact h2
  · rw [update_forgetting_curve_strength]
    refine (update_memory_strength_bounds _ inp.is_correct inp.confidence ?_ ?_ hc0 hc1).2
    · exact h1
    · exact h2
  · rw [update_forgetting_curve_confidence]
    refine (update_confidence_bounds _ _ inp.is_correct ?_ ?_ hc0 hc1).1
    · exact h3
    · exact h4
  · rw [update_forgetting_curve_confidence]
    refine (update_confidence_bounds _ _ inp.is_correct ?_ ?_ hc0 hc1).2
    · exact h3
    · exact h4
  · refine (update_forgetting_curve_decay_bounds _ inp.is_correct inp.response_time ?_ ?_).1
    · exact h5
    · exact h6
  · refine (update_forgetting_curve_decay_bounds _ inp.is_correct inp.response_time ?_ ?_).2
    · exact h5
    · exact h6
  · refine (update_forgetting_curve_diff_bounds _ inp.is_correct inp.response_time ?_ ?_).1
    · exact h7
    · exact h8
  · refine (update_forgetting_curve_diff_bounds _ inp.is_correct inp.response_time ?_ ?_).2
    · exact h7
    · exact h8

theorem memBounds_applyInteractions (m : ConceptMemory) (steps : List (ℚ × Interaction))
    (hm : MemBounds m) (hs : ∀ s ∈ steps, 0 ≤ s.2.confidence ∧ s.2.confidence ≤ 1) :
    MemBounds (applyInteractions m steps) := by
  induction steps generalizing m with
  | nil => exact hm
  | cons s rest ih =>
    have hsrest : ∀ s' ∈ rest, 0 ≤ s'.2.confidence ∧ s'.2.confidence ≤ 1 :=
      fun s' hs' => hs s' (List.mem_cons_of_mem _ hs')
    have hhead := hs s (List.mem_cons_self _ _)
    exact ih _ (memBounds_recordStep s.1 s.2 m hm hhead.1 hhead.2) hsrest

/-- C1: starting from a concept memory created with the documented defaults
(memory_strength 0.1, decay_rate 0.1, difficulty_adjustment 1.0) and feeding
any sequence of `recordInteraction` calls whose confidence inputs lie in
[0,1], after every call `memory_strength` and `confidence_level` lie in
[0,1], `decay_rate` in [0.01, 0.5] and `difficulty_adjustment` in [0.5, 2.0]. -/
theorem C1_memory_bounds (now0 : ℚ) (cid cname : String) (inp0 : Interaction)
    (steps : List (ℚ × Interaction))
    (h0 : 0 ≤ inp0.confidence ∧ inp0.confidence ≤ 1)
    (hs : ∀ s ∈ steps, 0 ≤ s.2.confidence ∧ s.2.confidence ≤ 1) :
    MemBounds (applyInteractions (createMemory now0 cid cname inp0) steps) := by
  refine memBounds_applyInteractions _ steps ?_ hs
  unfold createMemory MemBounds
  refine ⟨by norm_num, by norm_num, h0.1, h0.2, by norm_num, by norm_num, by norm_num, by norm_num⟩

/-- The memory state inside `record_learning_interaction` at the moment
`_calculate_next_review_enhanced` is invoked (counters, response time,
strength, knowledge state and learning phase already updated; next review,
last review, review count, confidence and forgetting curve not yet). -/
def preReviewState (now : ℚ) (inp : Interaction) (m0 : ConceptMemory) : ConceptMemory :=
  let m1 := { m0 with
    total_attempts := m0.total_attempts + 1,
    correct_answers := m0.correct_answers + (if inp.is_correct then 1 else 0) }
  let m2 := { m1 with average_response_time :=
    (3/10) * inp.response_time + (1 - 3/10) * m1.average_response_time }
  let m3 := { m2 with memory_strength := update_memory_strength m2 inp.is_correct inp.confidence }
  let m4 := { m3 with knowledge_state := update_knowledge_state m3 }
  { m4 with learning_phase := update_learning_phase now m4 }

theorem recordStep_next_review (now : ℚ) (inp : Interaction) (m : ConceptMemory) :
    (recordStep now inp m).next_review =
      calculate_next_review_enhanced now (preReviewState now inp m) inp.is_correct := rfl

theorem recordStep_last_review (now : ℚ) (inp : Interaction) (m : ConceptMemory) :
    (recordStep now inp m).last_review = now := rfl

theorem recordStep_strength_eq (now : ℚ) (inp : Interaction) (m : ConceptMemory) :
    (recordStep now inp m).memory_strength = (preReviewState now inp m).memory_strength := rfl

theorem recordStep_accuracy_eq (now : ℚ) (inp : Interaction) (m : ConceptMemory) :
    accuracy_rate (recordStep now inp m) = accuracy_rate (preReviewState now inp m) := rfl

theorem recordStep_phase_eq (now : ℚ) (inp : Interaction) (m : ConceptMemory) :
    (recordStep now inp m).learning_phase = (preReviewState now inp m).learning_phase := rfl

/-- C4: the interval added to now by a recorded interaction is 0.5 days on an
incorrect answer regardless of anything else; on a correct answer it is the
base 1.0 day times the strength bonus (1 + 2·strength), the accuracy bonus
(1 + accuracy), the learning-phase multiplier, 1/difficulty_adjustment and
1.3^review_count (read before the update increments the count and adapts the
difficulty), clamped to [0.1, 365]; and next_review ≥ last_review holds after
the update. -/
theorem C4_next_review (now : ℚ) (inp : Interaction) (m : ConceptMemory) :
    (inp.is_correct = false → (recordStep now inp m).next_review = now + 1/2) ∧
    (inp.is_correct = true →
      (recordStep now inp m).next_review = now + max (1/10) (min 365
        (1 * (1 + (recordStep now inp m).memory_strength * 2)
          * (1 + accuracy_rate (recordStep now inp m))
          * phase_multiplier (recordStep now inp m).learning_phase
          * (1 / m.difficulty_adjustment)
          * (13/10) ^ m.review_count))) ∧
    (recordStep now inp m).last_review ≤ (recordStep now inp m).next_review := by
  refine ⟨?_, ?_, ?_⟩
  · intro hc
    rw [recordStep_next_review]
    unfold calculate_next_review_enhanced
    rw [hc]
    norm_num
  · intro hc
    rw [recordStep_next_review, recordStep_strength_eq, recordStep_accuracy_eq,
      recordStep_phase_eq]
    unfold calculate_next_review_enhanced
    rw [hc]
    simp only [if_true]
    rfl
  · rw [recordStep_last_review, recordStep_next_review]
    unfold calculate_next_review_enhanced
    dsimp only
    have h := le_max_left (1/10 : ℚ)
      (min 365 (if inp.is_correct = true then
        1 * (1 + (preReviewState now inp m).memory_strength * 2) *
          (1 + accuracy_rate (preReviewState now inp m)) *
          phase_multiplier (preReviewState now inp m).learning_phase *
          (1 / (preReviewState now inp m).difficulty_adjustment) *
          (13/10) ^ (preReviewState now inp m).review_count
        else 1 * (1/2)))
    linarith

/-- Witness for C4 at a concrete incorrect interaction. -/
theorem C4_witness :
    ((Interaction.mk false 2 (1/2) "").is_correct = false) ∧
    (recordStep 7 (Interaction.mk false 2 (1/2) "")
      (createMemory 0 "c" "n" (Interaction.mk true 1 (1/2) ""))).next_review = 7 + 1/2 :=
  ⟨rfl, (C4_next_review 7 (Interaction.mk false 2 (1/2) "")
    (createMemory 0 "c" "n" (Interaction.mk true 1 (1/2) ""))).1 rfl⟩

/-- Witness for C1 on a concrete interaction sequence. -/
theorem C1_witness :
    ((0:ℚ) ≤ (1/2 : ℚ) ∧ (1/2 : ℚ) ≤ 1) ∧
    (∀ s ∈ [((1:ℚ), Interaction.mk false 2 1 "x"), ((3:ℚ), Interaction.mk true 1 (3/4) "y")],
      0 ≤ s.2.confidence ∧ s.2.confidence ≤ 1) ∧
    MemBounds (applyInteractions (createMemory 0 "c" "n" (Interaction.mk true 1 (1/2) ""))
      [((1:ℚ), Interaction.mk false 2 1 "x"), ((3:ℚ), Interaction.mk true 1 (3/4) "y")]) :=
  ⟨by norm_num, by intro s hs; fin_cases hs <;> constructor <;> norm_num,
    C1_memory_bounds 0 "c" "n" _ _ (by norm_num)
      (by intro s hs; fin_cases hs <;> constructor <;> norm_num)⟩

/-! ### Due-concept selector (`get_due_concepts`) -/

/-- The phase weights of the priority score. -/
def phase_weight : LearningPhase → ℚ
  | .acquisition => 1
  | .consolidation => 8/10
  | .retention => 6/10
  | .transfer => 4/10

/-- `(datetime.now() - memory.next_review).days`: floor of the day difference. -/
def days_overdue (now : ℚ) (m : ConceptMemory) : Int := ⌊now - m.next_review⌋

/-- The `priority_score` closure inside `get_due_concepts`. -/
def priority_score (now : ℚ) (m : ConceptMemory) : ℚ :=
  min 10 (max 0 ((days_overdue now m : ℚ))) * (3/10)
    + (1 - m.memory_strength) * (4/10)
    + phase_weight m.learning_phase * (3/10)

/-- `get_due_concepts(user_id, max_count)`: filter the due concepts, sort
them descending by priority score (Python's stable sort = stable merge sort)
and return the first `max_count`. -/
def get_due_concepts (now : ℚ) (mems : List ConceptMemory) (max_count : Nat) :
    List ConceptMemory :=
  (((mems.filter (fun m => decide (m.next_review ≤ now))).mergeSort
    (fun a b => decide (priority_score now b ≤ priority_score now a))).take max_count)

/-- C7: `getDueConcepts` returns only concepts of the profile whose
next_review is at most now, returns at most `max_count` of them, and orders
them descending by `0.3·min(10, days_overdue) + 0.4·(1 − strength)
+ 0.3·phase_weight`. -/
theorem C7_getDueConcepts (now : ℚ) (mems : List ConceptMemory) (max_count : Nat) :
    (∀ m ∈ get_due_concepts now mems max_count, m ∈ mems ∧ m.next_review ≤ now) ∧
    (get_due_concepts now mems max_count).length ≤ max_count ∧
    (get_due_concepts now mems max_count).Pairwise
      (fun a b => priority_score now b ≤ priority_score now a) := by
  refine ⟨?_, List.length_take_le _ _, ?_⟩
  · intro m hm
    have h1 : m ∈ (mems.filter (fun m => decide (m.next_review ≤ now))).mergeSort
        (fun a b => decide (priority_score now b ≤ priority_score now a)) :=
      (List.take_sublist _ _).mem hm
    have h2 : m ∈ mems.filter (fun m => decide (m.next_review ≤ now)) :=
      (List.mergeSort_perm _ _).mem_iff.mp h1
    have h3 := List.mem_filter.mp h2
    exact ⟨h3.1, of_decide_eq_true h3.2⟩
  · have hs := @List.sorted_mergeSort ConceptMemory
      (fun a b => decide (priority_score now b ≤ priority_score now a))
      (fun a b c h1 h2 => by
        simp only [decide_eq_true_eq] at h1 h2 ⊢
        exact le_trans h2 h1)
      (fun a b => by
        simp only [Bool.or_eq_true, decide_eq_true_eq]
        exact le_total _ _)
      (mems.filter (fun m => decide (m.next_review ≤ now)))
    have hs' := List.Pairwise.sublist (List.take_sublist max_count _) hs
    refine hs'.imp ?_
    intro a b h
    exact of_decide_eq_true h

/-- Witness for C7 on a one-concept profile. -/
theorem C7_witness :
    createMemory 0 "c" "n" (Interaction.mk true 1 (1/2) "") ∈
      get_due_concepts 10 [createMemory 0 "c" "n" (Interaction.mk true 1 (1/2) "")] 3 ∧
    (createMemory 0 "c" "n" (Interaction.mk true 1 (1/2) "") ∈
        [createMemory 0 "c" "n" (Interaction.mk true 1 (1/2) "")] ∧
      (createMemory 0 "c" "n" (Interaction.mk true 1 (1/2) "")).next_review ≤ 10) := by
  have hnr : (createMemory 0 "c" "n" (Interaction.mk true 1 (1/2) "")).next_review ≤ 10 := by
    unfold createMemory calculate_next_review
    norm_num
  have heval : get_due_concepts 10 [createMemory 0 "c" "n" (Interaction.mk true 1 (1/2) "")] 3 =
      [createMemory 0 "c" "n" (Interaction.mk true 1 (1/2) "")] := by
    unfold get_due_concepts
    rw [List.filter_cons_of_pos (by simpa using hnr), List.filter_nil,
      List.mergeSort_singleton]
    rfl
  have hmem : createMemory 0 "c" "n" (Interaction.mk true 1 (1/2) "") ∈
      get_due_concepts 10 [createMemory 0 "c" "n" (Interaction.mk true 1 (1/2) "")] 3 := by
    rw [heval]; exact List.mem_cons_self _ _
  exact ⟨hmem,
    (C7_getDueConcepts 10 [createMemory 0 "c" "n" (Interaction.mk true 1 (1/2) "")] 3).1
      _ hmem⟩

/-! ### Analytics aggregator (`generate_learning_analytics`) -/

/-- The summary numbers of the analytics report (the further report fields
are derived views of the same concept-memory list and play no role in the
claims). -/
structure AnalyticsSummary where
  total_concepts : Nat
  overall_accuracy : ℚ
  total_attempts : Nat
  correct_answers : Nat
  deriving DecidableEq, Repr

/-- The analytics result: either the early-return error dict or a report. -/
inductive AnalyticsResult where
  | error (msg : String)
  | report (summary : AnalyticsSummary)
  deriving DecidableEq, Repr

/-- `generate_learning_analytics(user_id)`, applied to the profile's concept
memories.  An empty profile takes the early `return` with the error dict
`{"error": "No learning data available"}`; no exception is raised. -/
def generate_learning_analytics (mems : List ConceptMemory) : AnalyticsResult :=
  let total_concepts := mems.length
  if total_concepts = 0 then .error "No learning data available"
  else
    let total_attempts : Nat := (mems.map (fun m => m.total_attempts)).sum
    let total_correct : Nat := (mems.map (fun m => m.correct_answers)).sum
    let overall_accuracy : ℚ := (total_correct : ℚ) / ((max total_attempts 1 : Nat) : ℚ)
    .report { total_concepts := total_concepts, overall_accuracy := overall_accuracy,
              total_attempts := total_attempts, correct_answers := total_correct }

/-- C9 counterexample: on an empty profile the code returns the error value
with message "No learning data available", not the literal result
`{"error": "no data"}` the claim states. -/
theorem C9_counterexample :
    generate_learning_analytics [] ≠ AnalyticsResult.error "no data" ∧
    generate_learning_analytics [] = AnalyticsResult.error "No learning data available" := by
  constructor
  · decide
  · rfl

/-- C9 (amended): for every profile with zero concept memories,
`generateAnalytics` returns the explicit error result
`{"error": "No learning data available"}` rather than raising an exception. -/
theorem C9_empty_profile (mems : List ConceptMemory) (h : mems.length = 0) :
    generate_learning_analytics mems = AnalyticsResult.error "No learning data available" := by
  unfold generate_learning_analytics
  rw [if_pos h]

/-- Witness for the amended C9 at the concrete empty profile. -/
theorem C9_witness :
    ([] : List ConceptMemory).length = 0 ∧
    generate_learning_analytics [] = AnalyticsResult.error "No learning data available" :=
  ⟨rfl, C9_empty_profile [] rfl⟩

/-! ### Learning-path planner (`optimize_learning_path`)

The profile's `concept_memories` dict is modelled as an association list in
insertion order with unique keys; `concept_graph` has exactly the target
concepts as keys, each carrying the known memory's prerequisites or none.
The depth-first visit is run with explicit fuel (one unit per recursion
level; `targets.length + 1` suffices, as shown below).  The `broken` field
is ghost instrumentation recording the prerequisite edges skipped by the
cycle tolerance; `visited`/`sorted` evolve exactly as in the source. -/

/-- Dict lookup `profile.concept_memories.get(concept_id)`. -/
def lookupMem (mems : List (String × ConceptMemory)) (cid : String) : Option ConceptMemory :=
  (mems.find? (fun p => p.1 == cid)).map Prod.snd

/-- `concept_graph.get(concept_id, {}).get("prerequisites", [])`: the node's
prerequisites, empty for unknown concepts and for ids outside the graph. -/
def graphPrereqs (mems : List (String × ConceptMemory)) (targets : List String)
    (cid : String) : List String :=
  if targets.contains cid then
    match lookupMem mems cid with
    | some m => m.prerequisites
    | none => []
  else []

/-- State of the depth-first topological sort: `visited` and `sorted` as in
the source, plus the ghost list of cycle-broken edges `(concept, prereq)`. -/
structure DfsSt where
  visited : List String
  sorted : List String
  broken : List (String × String)
  deriving DecidableEq, Repr

/-- The recursive `visit` of `optimize_learning_path`: skip when on the
current path (a cycle) or already done; otherwise run the
`for prereq in …: if prereq in concept_graph: visit(prereq)` loop, then
append to the postorder.  The loop is instrumented to record an edge as
broken exactly when the nested call would return at the `temp_visited`
check (such a call leaves the state unchanged in the source). -/
def visit (mems : List (String × ConceptMemory)) (targets : List String) :
    Nat → List String → String → DfsSt → DfsSt
  | 0, _, _, st => st
  | fuel+1, temp, c, st =>
    if c ∈ temp then st
    else if c ∈ st.visited then st
    else
      let st' := (graphPrereqs mems targets c).foldl
        (fun acc p =>
          if targets.contains p then
            if p ∈ c :: temp then { acc with broken := acc.broken ++ [(c, p)] }
            else visit mems targets fuel (c :: temp) p acc
          else acc) st
      { st' with visited := c :: st'.visited, sorted := st'.sorted ++ [c] }

/-- The topological-sort phase of `optimize_learning_path`: visit every
target concept starting from empty visited/temporary sets. -/
def topoSort (mems : List (String × ConceptMemory)) (targets : List String) : DfsSt :=
  targets.foldl (fun st c => visit mems targets (targets.length + 1) [] c st)
    { visited := [], sorted := [], broken := [] }

/-- One concept entry of a study session. -/
structure SessionConcept where
  concept_id : String
  estimated_load : ℚ
  current_state : String
  priority : ℚ
  deriving DecidableEq, Repr

/-- One emitted study session. -/
structure Session where
  session_type : String
  concepts : List SessionConcept
  estimated_duration : Nat
  cognitive_load : ℚ
  deriving DecidableEq, Repr

/-- The `.value` string of a knowledge state. -/
def stateValue : KnowledgeState → String
  | .unknown => "unknown"
  | .learning => "learning"
  | .practiced => "practiced"
  | .mastered => "mastered"
  | .expert => "expert"

/-- Estimated cognitive load of a concept: `(1 − strength) ×
difficulty_adjustment` for known concepts, 0.7 for unseen ones. -/
def conceptLoad (mems : List (String × ConceptMemory)) (cid : String) : ℚ :=
  match lookupMem mems cid with
  | some m => (1 - m.memory_strength) * m.difficulty_adjustment
  | none => 7/10

/-- The session-concept dict appended for one concept. -/
def mkSessionConcept (mems : List (String × ConceptMemory)) (cid : String) : SessionConcept :=
  match lookupMem mems cid with
  | some m =>
    { concept_id := cid
      estimated_load := (1 - m.memory_strength) * m.difficulty_adjustment
      current_state := stateValue m.knowledge_state
      priority := 1 - m.memory_strength }
  | none =>
    { concept_id := cid, estimated_load := 7/10, current_state := "new", priority := 1 - 0 }

/-- A flushed session dict. -/
def mkSession (session : List SessionConcept) (load : ℚ) : Session :=
  { session_type := "study"
    concepts := session
    estimated_duration := session.length * 5
    cognitive_load := load }

/-- The greedy bin-packing loop over the sorted concepts: flush the current
session when adding the next concept would exceed capacity and the session
is non-empty, then append the concept; flush the final session if non-empty. -/
def packGo (mems : List (String × ConceptMemory)) (capacity : ℚ) :
    List String → List Session → List SessionConcept → ℚ → List Session
  | [], path, session, load =>
    if session.isEmpty then path else path ++ [mkSession session load]
  | cid :: rest, path, session, load =>
    let l := conceptLoad mems cid
    if capacity < load + l ∧ ¬ session.isEmpty then
      packGo mems capacity rest (path ++ [mkSession session load])
        [mkSessionConcept mems cid] l
    else
      packGo mems capacity rest path (session ++ [mkSessionConcept mems cid]) (load + l)

/-- `optimize_learning_path(user_id, target_concepts)`. -/
def optimize_learning_path (mems : List (String × ConceptMemory)) (capacity : ℚ)
    (targets : List String) : List Session :=
  packGo mems capacity (topoSort mems targets).sorted [] [] 0

/-- A minimal concept memory with the given strength, difficulty and
prerequisites (all other fields inert), used on concrete planner inputs. -/
def exMem (cid : String) (strength diff : ℚ) (prereqs : List String) :
    String × ConceptMemory :=
  (cid, { concept_id := cid, concept_name := cid, knowledge_state := .learning,
          learning_phase := .acquisition, memory_strength := strength,
          confidence_level := 0, first_exposure := 0, last_review := 0, next_review := 0,
          review_count := 0, correct_answers := 0, total_attempts := 0,
          average_response_time := 0, decay_rate := 0, difficulty_adjustment := diff,
          prerequisites := prereqs, dependents := [], learning_contexts := [],
          associated_materials := [] })

/-- A profile with three prerequisite-free concepts of cognitive loads 1, 2
and 0 (capacity 1). -/
def exMems : List (String × ConceptMemory) :=
  [exMem "c1" 0 1 [], exMem "c2" 0 2 [], exMem "c3" 1 1 []]

/-- The planner targets of the concrete run. -/
def exTargets : List String := ["c1", "c2", "c3"]

theorem exMems_loads :
    conceptLoad exMems "c1" = (1 - 0) * 1 ∧
    conceptLoad exMems "c2" = (1 - 0) * 2 ∧
    conceptLoad exMems "c3" = (1 - 1) * 1 :=
  ⟨rfl, rfl, rfl⟩

theorem exMems_path_eval :
    optimize_learning_path exMems 1 exTargets =
      [mkSession [mkSessionConcept exMems "c1"] (0 + conceptLoad exMems "c1"),
       mkSession [mkSessionConcept exMems "c2"] (conceptLoad exMems "c2"),
       mkSession [mkSessionConcept exMems "c3"] (conceptLoad exMems "c3")] := by
  obtain ⟨hL1, hL2, hL3⟩ := exMems_loads
  have hts : (topoSort exMems exTargets).sorted = ["c1", "c2", "c3"] := rfl
  have e1 : optimize_learning_path exMems 1 exTargets =
      packGo exMems 1 ["c1", "c2", "c3"] [] [] 0 := by
    unfold optimize_learning_path
    rw [hts]
  have hc1 : ¬ ((1:ℚ) < 0 + conceptLoad exMems "c1" ∧
      ¬ (List.isEmpty ([] : List SessionConcept) = true)) := by simp
  have e2 : packGo exMems 1 ["c1", "c2", "c3"] [] [] 0 =
      packGo exMems 1 ["c2", "c3"] [] ([] ++ [mkSessionConcept exMems "c1"])
        (0 + conceptLoad exMems "c1") := by
    show (if (1:ℚ) < 0 + conceptLoad exMems "c1" ∧
            ¬ (List.isEmpty ([] : List SessionConcept) = true) then
        packGo exMems 1 ["c2", "c3"] ([] ++ [mkSession [] 0])
          [mkSessionConcept exMems "c1"] (conceptLoad exMems "c1")
      else
        packGo exMems 1 ["c2", "c3"] [] ([] ++ [mkSessionConcept exMems "c1"])
          (0 + conceptLoad exMems "c1")) = _
    rw [if_neg hc1]
  have hc2 : ((1:ℚ) < (0 + conceptLoad exMems "c1") + conceptLoad exMems "c2" ∧
      ¬ (List.isEmpty ([] ++ [mkSessionConcept exMems "c1"]) = true)) := by
    rw [hL1, hL2]
    norm_num
  have e3 : packGo exMems 1 ["c2", "c3"] [] ([] ++ [mkSessionConcept exMems "c1"])
        (0 + conceptLoad exMems "c1") =
      packGo exMems 1 ["c3"]
        ([] ++ [mkSession ([] ++ [mkSessionConcept exMems "c1"]) (0 + conceptLoad exMems "c1")])
        [mkSessionConcept exMems "c2"] (conceptLoad exMems "c2") := by
    show (if (1:ℚ) < (0 + conceptLoad exMems "c1") + conceptLoad exMems "c2" ∧
            ¬ (List.isEmpty ([] ++ [mkSessionConcept exMems "c1"]) = true) then
        packGo exMems 1 ["c3"]
          ([] ++ [mkSession ([] ++ [mkSessionConcept exMems "c1"]) (0 + conceptLoad exMems "c1")])
          [mkSessionConcept exMems "c2"] (conceptLoad exMems "c2")
      else
        packGo exMems 1 ["c3"] []
          (([] ++ [mkSessionConcept exMems "c1"]) ++ [mkSessionConcept exMems "c2"])
          ((0 + conceptLoad exMems "c1") + conceptLoad exMems "c2")) = _
    rw [if_pos hc2]
  have hc3 : ((1:ℚ) < conceptLoad exMems "c2" + conceptLoad exMems "c3" ∧
      ¬ (List.isEmpty [mkSessionConcept exMems "c2"] = true)) := by
    rw [hL2, hL3]
    norm_num
  have e4 : packGo exMems 1 ["c3"]
        ([] ++ [mkSession ([] ++ [mkSessionConcept exMems "c1"]) (0 + conceptLoad exMems "c1")])
        [mkSessionConcept exMems "c2"] (conceptLoad exMems "c2") =
      packGo exMems 1 []
        (([] ++ [mkSession ([] ++ [mkSessionConcept exMems "c1"]) (0 + conceptLoad exMems "c1")])
          ++ [mkSession [mkSessionConcept exMems "c2"] (conceptLoad exMems "c2")])
        [mkSessionConcept exMems "c3"] (conceptLoad exMems "c3") := by
    show (if (1:ℚ) < conceptLoad exMems "c2" + conceptLoad exMems "c3" ∧
            ¬ (List.isEmpty [mkSessionConcept exMems "c2"] = true) then
        packGo exMems 1 []
          (([] ++ [mkSession ([] ++ [mkSessionConcept exMems "c1"]) (0 + conceptLoad exMems "c1")])
            ++ [mkSession [mkSessionConcept exMems "c2"] (conceptLoad exMems "c2")])
          [mkSessionConcept exMems "c3"] (conceptLoad exMems "c3")
      else
        packGo exMems 1 []
          ([] ++ [mkSession ([] ++ [mkSessionConcept exMems "c1"]) (0 + conceptLoad exMems "c1")])
          ([mkSessionConcept exMems "c2"] ++ [mkSessionConcept exMems "c3"])
          (conceptLoad exMems "c2" + conceptLoad exMems "c3")) = _
    rw [if_pos hc3]
  rw [e1, e2, e3, e4]
  simp [packGo]

/-- C8 counterexample: on a three-concept prerequisite-free profile with
capacity 1 and loads 1, 2, 0, the planner emits three sessions of loads 1, 2
and 0; the first and third have combined load 1 ≤ capacity and the restricted
prerequisite graph has no edges at all (no edge broken), so they could have
legally merged — refuting the claim that no two emitted sessions can ever
merge. -/
theorem C8_counterexample :
    (optimize_learning_path exMems 1 exTargets).map (fun s => s.cognitive_load) = [1, 2, 0] ∧
    ((1 : ℚ) + 0 ≤ 1) ∧
    exTargets.all (fun t => (graphPrereqs exMems exTargets t).isEmpty) = true ∧
    (topoSort exMems exTargets).broken = [] := by
  obtain ⟨hL1, hL2, hL3⟩ := exMems_loads
  refine ⟨?_, by norm_num, by decide, rfl⟩
  rw [exMems_path_eval]
  simp only [List.map_cons, List.map_nil, mkSession]
  rw [hL1, hL2, hL3]
  norm_num

/-- The concept ids of an emitted path, in emission order. -/
def concatIds : List Session → List String
  | [] => []
  | s :: rest => s.concepts.map (fun c => c.concept_id) ++ concatIds rest

theorem concatIds_append (a b : List Session) :
    concatIds (a ++ b) = concatIds a ++ concatIds b := by
  induction a with
  | nil => rfl
  | cons s rest ih => simp [concatIds, ih]

theorem mkSessionConcept_id (mems : List (String × ConceptMemory)) (cid : String) :
    (mkSessionConcept mems cid).concept_id = cid := by
  unfold mkSessionConcept
  cases lookupMem mems cid with
  | none => rfl
  | some m => rfl

/-- The packing loop emits every concept of its input exactly once, in
order: first the ids already flushed, then the pending session, then the
remaining input. -/
theorem packGo_concat (mems : List (String × ConceptMemory)) (capacity : ℚ)
    (l : List String) (path : List Session) (session : List SessionConcept) (load : ℚ) :
    concatIds (packGo mems capacity l path session load) =
      concatIds path ++ session.map (fun c => c.concept_id) ++ l := by
  induction l generalizing path session load with
  | nil =>
    by_cases h : session.isEmpty
    · have : session = [] := List.isEmpty_iff.mp h
      subst this
      simp [packGo]
    · have h' : session.isEmpty = false := by
        cases hx : session.isEmpty with
        | true => exact absurd hx h
        | false => rfl
      simp [packGo, h', concatIds_append, concatIds, mkSession]
  | cons cid rest ih =>
    show concatIds
        (if capacity < load + conceptLoad mems cid ∧ ¬ session.isEmpty then
          packGo mems capacity rest (path ++ [mkSession session load])
            [mkSessionConcept mems cid] (conceptLoad mems cid)
        else
          packGo mems capacity rest path (session ++ [mkSessionConcept mems cid])
            (load + conceptLoad mems cid)) = _
    by_cases h : capacity < load + conceptLoad mems cid ∧ ¬ session.isEmpty
    · rw [if_pos h, ih]
      simp [concatIds_append, concatIds, mkSession, mkSessionConcept_id]
    · rw [if_neg h, ih]
      simp [mkSessionConcept_id]

/-- The packing loop keeps every pair of consecutive emitted sessions above
capacity: the earlier one was flushed precisely because the first concept of
the later one no longer fits, and later concepts only add load. -/
theorem packGo_chain (mems : List (String × ConceptMemory)) (capacity : ℚ)
    (hload : ∀ cid : String, 0 ≤ conceptLoad mems cid) :
    ∀ (l : List String) (path : List Session) (session : List SessionConcept) (load : ℚ),
    List.Chain' (fun s1 s2 => capacity < s1.cognitive_load + s2.cognitive_load) path →
    (∀ slast, path.getLast? = some slast → capacity < slast.cognitive_load + load) →
    List.Chain' (fun s1 s2 => capacity < s1.cognitive_load + s2.cognitive_load)
      (packGo mems capacity l path session load) := by
  intro l
  induction l with
  | nil =>
    intro path session load hchain hlink
    by_cases h : session.isEmpty
    · simpa [packGo, h] using hchain
    · have h' : session.isEmpty = false := by
        cases hx : session.isEmpty with
        | true => exact absurd hx h
        | false => rfl
      simp only [packGo, h', Bool.false_eq_true, if_false]
      rw [List.chain'_append]
      refine ⟨hchain, List.chain'_singleton _, ?_⟩
      intro x hx y hy
      simp only [List.head?_cons, Option.mem_def, Option.some.injEq] at hy
      subst hy
      exact hlink x hx
  | cons cid rest ih =>
    intro path session load hchain hlink
    show List.Chain' _
        (if capacity < load + conceptLoad mems cid ∧ ¬ session.isEmpty then
          packGo mems capacity rest (path ++ [mkSession session load])
            [mkSessionConcept mems cid] (conceptLoad mems cid)
        else
          packGo mems capacity rest path (session ++ [mkSessionConcept mems cid])
            (load + conceptLoad mems cid))
    by_cases h : capacity < load + conceptLoad mems cid ∧ ¬ session.isEmpty
    · rw [if_pos h]
      refine ih (path ++ [mkSession session load]) _ _ ?_ ?_
      · rw [List.chain'_append]
        refine ⟨hchain, List.chain'_singleton _, ?_⟩
        intro x hx y hy
        simp only [List.head?_cons, Option.mem_def, Option.some.injEq] at hy
        subst hy
        exact hlink x hx
      · intro slast hslast
        rw [List.getLast?_concat] at hslast
        injection hslast with hs
        subst hs
        exact h.1
    · rw [if_neg h]
      refine ih path _ _ hchain ?_
      intro slast hslast
      have := hlink slast hslast
      have h2 := hload cid
      linarith

/-- `p` occurs strictly before `c` in the list `l`. -/
def Before (l : List String) (p c : String) : Prop :=
  ∃ l1 l2 l3, l = l1 ++ p :: (l2 ++ c :: l3)

theorem before_append (l d : List String) (p c : String) (h : Before l p c) :
    Before (l ++ d) p c := by
  obtain ⟨l1, l2, l3, rfl⟩ := h
  exact ⟨l1, l2, l3 ++ d, by simp⟩

theorem before_of_mem_append (l : List String) (p c : String) (h : p ∈ l) :
    Before (l ++ [c]) p c := by
  obtain ⟨l1, l2, rfl⟩ := List.append_of_mem h
  exact ⟨l1, l2, [], by simp⟩

/-- The postorder respects every prerequisite edge of the restricted graph
that was not recorded as cycle-broken. -/
def GoodSt (mems : List (String × ConceptMemory)) (targets : List String)
    (st : DfsSt) : Prop :=
  ∀ c p, c ∈ st.sorted → p ∈ graphPrereqs mems targets c → targets.contains p = true →
    (c, p) ∈ st.broken ∨ Before st.sorted p c

/-- The running invariant of the depth-first sort. -/
def DfsInv (mems : List (String × ConceptMemory)) (targets : List String)
    (st : DfsSt) : Prop :=
  st.sorted.Perm st.visited ∧ st.visited.Nodup ∧
  (∀ x ∈ st.sorted, x ∈ targets) ∧ GoodSt mems targets st

/-- How one call extends the state: visited gains only ids outside `temp`,
sorted and broken grow by appending. -/
def Extends (temp : List String) (st st' : DfsSt) : Prop :=
  (∃ dv, st'.visited = dv ++ st.visited ∧ ∀ x ∈ dv, x ∉ temp) ∧
  (∃ ds, st'.sorted = st.sorted ++ ds) ∧
  (∃ db, st'.broken = st.broken ++ db)

theorem extends_refl (temp : List String) (st : DfsSt) : Extends temp st st :=
  ⟨⟨[], by simp, by simp⟩, ⟨[], by simp⟩, ⟨[], by simp⟩⟩

theorem extends_trans (temp : List String) (st1 st2 st3 : DfsSt)
    (h1 : Extends temp st1 st2) (h2 : Extends temp st2 st3) : Extends temp st1 st3 := by
  obtain ⟨⟨dv1, hv1, hv1'⟩, ⟨ds1, hs1⟩, ⟨db1, hb1⟩⟩ := h1
  obtain ⟨⟨dv2, hv2, hv2'⟩, ⟨ds2, hs2⟩, ⟨db2, hb2⟩⟩ := h2
  refine ⟨⟨dv2 ++ dv1, ?_, ?_⟩, ⟨ds1 ++ ds2, ?_⟩, ⟨db1 ++ db2, ?_⟩⟩
  · rw [hv2, hv1, List.append_assoc]
  · intro x hx
    rcases List.mem_append.mp hx with h | h
    · exact hv2' x h
    · exact hv1' x h
  · rw [hs2, hs1, List.append_assoc]
  · rw [hb2, hb1, List.append_assoc]

theorem mem_visited_of_extends (temp : List String) (st st' : DfsSt)
    (h : Extends temp st st') (x : String) (hx : x ∈ st.visited) : x ∈ st'.visited := by
  obtain ⟨⟨dv, hv, _⟩, _, _⟩ := h
  rw [hv]
  exact List.mem_append.mpr (Or.inr hx)

theorem mem_broken_of_extends (temp : List String) (st st' : DfsSt)
    (h : Extends temp st st') (e : String × String) (he : e ∈ st.broken) : e ∈ st'.broken := by
  obtain ⟨_, _, ⟨db, hb⟩⟩ := h
  rw [hb]
  exact List.mem_append.mpr (Or.inl he)

theorem goodSt_broken_append (mems : List (String × ConceptMemory)) (targets : List String)
    (st : DfsSt) (e : String × String) (h : GoodSt mems targets st) :
    GoodSt mems targets { st with broken := st.broken ++ [e] } := by
  intro c p hc hp hcont
  rcases h c p hc hp hcont with hb | hbef
  · exact Or.inl (List.mem_append.mpr (Or.inl hb))
  · exact Or.inr hbef

theorem nodup_subset_length (temp targets : List String) (h1 : temp.Nodup)
    (h2 : ∀ t ∈ temp, t ∈ targets) : temp.length ≤ targets.dedup.length := by
  have hsub : temp.toFinset ⊆ targets.dedup.toFinset := by
    intro a ha
    rw [List.mem_toFinset] at *
    exact (List.mem_dedup).mpr (h2 a ha)
  calc temp.length = temp.toFinset.card := (List.toFinset_card_of_nodup h1).symm
    _ ≤ targets.dedup.toFinset.card := Finset.card_le_card hsub
    _ = targets.dedup.length := List.toFinset_card_of_nodup (List.nodup_dedup targets)

theorem visit_succ (mems : List (String × ConceptMemory)) (targets : List String)
    (fuel : Nat) (temp : List String) (c : String) (st : DfsSt) :
    visit mems targets (fuel+1) temp c st =
      (if c ∈ temp then st
       else if c ∈ st.visited then st
       else
         let st' := (graphPrereqs mems targets c).foldl
           (fun acc p =>
             if targets.contains p then
               if p ∈ c :: temp then { acc with broken := acc.broken ++ [(c, p)] }
               else visit mems targets fuel (c :: temp) p acc
             else acc) st
         { st' with visited := c :: st'.visited, sorted := st'.sorted ++ [c] }) := rfl

/-- Master specification of `visit`: with sufficient fuel it extends the
state monotonically, preserves the invariant, and completes its argument. -/
theorem visit_spec (mems : List (String × ConceptMemory)) (targets : List String) :
    ∀ (fuel : Nat) (temp : List String) (c : String) (st : DfsSt),
    temp.Nodup → (∀ t ∈ temp, t ∈ targets) → c ∈ targets →
    targets.dedup.length + 1 ≤ fuel + temp.length →
    DfsInv mems targets st →
    Extends temp st (visit mems targets fuel temp c st) ∧
    DfsInv mems targets (visit mems targets fuel temp c st) ∧
    (c ∉ temp → c ∈ (visit mems targets fuel temp c st).visited) := by
  intro fuel
  induction fuel with
  | zero =>
    intro temp c st h1 h2 h3 h4 h5
    have := nodup_subset_length temp targets h1 h2
    omega
  | succ fuel ih =>
    intro temp c st h1 h2 h3 h4 h5
    rw [visit_succ]
    by_cases hc : c ∈ temp
    · rw [if_pos hc]
      exact ⟨extends_refl _ _, h5, fun h => absurd hc h⟩
    · rw [if_neg hc]
      by_cases hv : c ∈ st.visited
      · rw [if_pos hv]
        exact ⟨extends_refl _ _, h5, fun _ => hv⟩
      · rw [if_neg hv]
        simp only
        have htemp' : (c :: temp).Nodup := List.nodup_cons.mpr ⟨hc, h1⟩
        have hsub' : ∀ t ∈ c :: temp, t ∈ targets := by
          intro t ht
          rcases List.mem_cons.mp ht with rfl | ht'
          · exact h3
          · exact h2 t ht'
        have hfuel' : targets.dedup.length + 1 ≤ fuel + (c :: temp).length := by
          simp only [List.length_cons]
          omega
        have fold_spec : ∀ (ps : List String) (st0 : DfsSt), DfsInv mems targets st0 →
            Extends (c :: temp) st0 (ps.foldl
              (fun acc p =>
                if targets.contains p then
                  if p ∈ c :: temp then { acc with broken := acc.broken ++ [(c, p)] }
                  else visit mems targets fuel (c :: temp) p acc
                else acc) st0) ∧
            DfsInv mems targets (ps.foldl
              (fun acc p =>
                if targets.contains p then
                  if p ∈ c :: temp then { acc with broken := acc.broken ++ [(c, p)] }
                  else visit mems targets fuel (c :: temp) p acc
                else acc) st0) ∧
            (∀ p ∈ ps, targets.contains p = true →
              (c, p) ∈ (ps.foldl
                (fun acc p =>
                  if targets.contains p then
                    if p ∈ c :: temp then { acc with broken := acc.broken ++ [(c, p)] }
                    else visit mems targets fuel (c :: temp) p acc
                  else acc) st0).broken ∨
              p ∈ (ps.foldl
                (fun acc p =>
                  if targets.contains p then
                    if p ∈ c :: temp then { acc with broken := acc.broken ++ [(c, p)] }
                    else visit mems targets fuel (c :: temp) p acc
                  else acc) st0).visited) := by
          intro ps
          induction ps with
          | nil =>
            intro st0 hinv0
            refine ⟨extends_refl _ _, hinv0, ?_⟩
            intro p hp
            exact absurd hp (List.not_mem_nil p)
          | cons p rest ihp =>
            intro st0 hinv0
            simp only [List.foldl_cons]
            by_cases hpg : targets.contains p = true
            · by_cases hpt : p ∈ c :: temp
              · rw [if_pos hpg, if_pos hpt]
                have hinv1 : DfsInv mems targets
                    { st0 with broken := st0.broken ++ [(c, p)] } := by
                  obtain ⟨ha, hb, hcc, hd⟩ := hinv0
                  exact ⟨ha, hb, hcc, goodSt_broken_append mems targets st0 (c, p) hd⟩
                obtain ⟨hext, hinv, hpost⟩ := ihp _ hinv1
                have hext0 : Extends (c :: temp) st0 { st0 with broken := st0.broken ++ [(c, p)] } :=
                  ⟨⟨[], by simp, by simp⟩, ⟨[], by simp⟩, ⟨[(c, p)], rfl⟩⟩
                refine ⟨extends_trans _ _ _ _ hext0 hext, hinv, ?_⟩
                intro q hq hqg
                rcases List.mem_cons.mp hq with rfl | hq'
                · refine Or.inl (mem_broken_of_extends _ _ _ hext (c, q) ?_)
                  exact List.mem_append.mpr (Or.inr (List.mem_singleton.mpr rfl))
                · exact hpost q hq' hqg
              · rw [if_pos hpg, if_neg hpt]
                have hpmem : p ∈ targets := by
                  have : List.elem p targets = true := hpg
                  exact List.elem_iff.mp this
                obtain ⟨hext1, hinv1, hcomp1⟩ :=
                  ih (c :: temp) p st0 htemp' hsub' hpmem hfuel' hinv0
                obtain ⟨hext, hinv, hpost⟩ := ihp _ hinv1
                refine ⟨extends_trans _ _ _ _ hext1 hext, hinv, ?_⟩
                intro q hq hqg
                rcases List.mem_cons.mp hq with rfl | hq'
                · exact Or.inr (mem_visited_of_extends _ _ _ hext q (hcomp1 hpt))
                · exact hpost q hq' hqg
            · rw [if_neg hpg]
              obtain ⟨hext, hinv, hpost⟩ := ihp st0 hinv0
              refine ⟨hext, hinv, ?_⟩
              intro q hq hqg
              rcases List.mem_cons.mp hq with rfl | hq'
              · exact absurd hqg hpg
              · exact hpost q hq' hqg
        obtain ⟨hext', hinv', hpost'⟩ := fold_spec (graphPrereqs mems targets c) st h5
        obtain ⟨hperm', hnodup', hsubT', hgood'⟩ := hinv'
        obtain ⟨⟨dv, hdv, hdvt⟩, ⟨ds, hds⟩, ⟨db, hdb⟩⟩ := hext'
        constructor
        · -- Extends temp st st''
          refine ⟨⟨c :: dv, ?_, ?_⟩, ⟨ds ++ [c], ?_⟩, ⟨db, ?_⟩⟩
          · simp only [hdv, List.cons_append]
          · intro x hx
            rcases List.mem_cons.mp hx with rfl | hx'
            · exact hc
            · intro hxt
              exact hdvt x hx' (List.mem_cons_of_mem _ hxt)
          · simp only [hds, List.append_assoc]
          · exact hdb
        constructor
        · -- DfsInv st''
          refine ⟨?_, ?_, ?_, ?_⟩
          · refine (List.perm_append_singleton c _).trans ?_
            exact List.Perm.cons c hperm'
          · refine List.nodup_cons.mpr ⟨?_, hnodup'⟩
            rw [hdv]
            intro hmem
            rcases List.mem_append.mp hmem with hmem' | hmem'
            · exact hdvt c hmem' (List.mem_cons_self _ _)
            · exact hv hmem'
          · intro x hx
            rcases List.mem_append.mp hx with hx' | hx'
            · exact hsubT' x hx'
            · rw [List.mem_singleton.mp hx']
              exact h3
          · intro c0 p0 hc0 hp0 hcont0
            rcases List.mem_append.mp hc0 with hc0' | hc0'
            · rcases hgood' c0 p0 hc0' hp0 hcont0 with hb | hbef
              · exact Or.inl hb
              · exact Or.inr (before_append _ _ _ _ hbef)
            · have hc0c : c0 = c := List.mem_singleton.mp hc0'
              subst hc0c
              rcases hpost' p0 hp0 hcont0 with hb | hvp
              · exact Or.inl hb
              · refine Or.inr (before_of_mem_append _ _ _ ?_)
                exact hperm'.mem_iff.mpr hvp
        · intro _
          exact List.mem_cons_self _ _

/-- The whole topological-sort phase establishes the invariant and visits
every target. -/
theorem topoSort_spec (mems : List (String × ConceptMemory)) (targets : List String) :
    DfsInv mems targets (topoSort mems targets) ∧
    ∀ t ∈ targets, t ∈ (topoSort mems targets).visited := by
  have hfold : ∀ (ts : List String) (st : DfsSt), (∀ t ∈ ts, t ∈ targets) →
      DfsInv mems targets st →
      DfsInv mems targets
        (ts.foldl (fun st c => visit mems targets (targets.length + 1) [] c st) st) ∧
      (∀ t ∈ ts, t ∈
        (ts.foldl (fun st c => visit mems targets (targets.length + 1) [] c st) st).visited) ∧
      Extends []
        st (ts.foldl (fun st c => visit mems targets (targets.length + 1) [] c st) st) := by
    intro ts
    induction ts with
    | nil =>
      intro st hts hinv
      refine ⟨hinv, ?_, extends_refl _ _⟩
      intro t ht
      exact absurd ht (List.not_mem_nil t)
    | cons c rest ihts =>
      intro st hts hinv
      simp only [List.foldl_cons]
      have hc : c ∈ targets := hts c (List.mem_cons_self _ _)
      have hbound : targets.dedup.length + 1 ≤ (targets.length + 1) + ([] : List String).length := by
        have := (List.dedup_sublist targets).length_le
        simp only [List.length_nil]
        omega
      obtain ⟨hext1, hinv1, hcomp1⟩ :=
        visit_spec mems targets (targets.length + 1) [] c st List.nodup_nil
          (by intro t ht; exact absurd ht (List.not_mem_nil t)) hc hbound hinv
      obtain ⟨hinvf, hmemf, hextf⟩ :=
        ihts _ (fun t ht => hts t (List.mem_cons_of_mem _ ht)) hinv1
      refine ⟨hinvf, ?_, extends_trans _ _ _ _ hext1 hextf⟩
      intro t ht
      rcases List.mem_cons.mp ht with rfl | ht'
      · exact mem_visited_of_extends _ _ _ hextf t
          (hcomp1 (List.not_mem_nil t))
      · exact hmemf t ht'
  have hinv0 : DfsInv mems targets { visited := [], sorted := [], broken := [] } := by
    refine ⟨List.Perm.refl _, List.nodup_nil, ?_, ?_⟩
    · intro x hx
      exact absurd hx (List.not_mem_nil x)
    · intro c p hc
      exact absurd hc (List.not_mem_nil c)
  obtain ⟨hinvf, hmemf, _⟩ := hfold targets _ (fun t ht => ht) hinv0
  exact ⟨hinvf, hmemf⟩

theorem conceptLoad_nonneg (mems : List (String × ConceptMemory))
    (hmem : ∀ e ∈ mems, e.2.memory_strength ≤ 1 ∧ 0 ≤ e.2.difficulty_adjustment)
    (cid : String) : 0 ≤ conceptLoad mems cid := by
  unfold conceptLoad lookupMem
  cases hf : mems.find? (fun p => p.1 == cid) with
  | none => norm_num
  | some pr =>
    show (0:ℚ) ≤ (1 - pr.2.memory_strength) * pr.2.difficulty_adjustment
    have hpr := List.mem_of_find?_eq_some hf
    have hb := hmem pr hpr
    have h1 : (0 : ℚ) ≤ 1 - pr.2.memory_strength := by linarith [hb.1]
    exact mul_nonneg h1 hb.2

/-- C8 (amended): under the data-model bounds on the profile (strength ≤ 1,
difficulty ≥ 0, so loads are non-negative), `optimizePath` never emits two
CONSECUTIVE sessions whose combined cognitive load fits within the capacity
(the earlier one was closed exactly because the later one's first concept no
longer fit — non-adjacent emitted sessions can still be mergeable, as the
counterexample shows); and the concatenated concepts of the emitted sessions
are exactly the cycle-tolerant depth-first postorder of the target set,
which covers every target exactly once and places every in-graph
prerequisite before its dependent except for the edges recorded as broken by
the cycle tolerance. -/
theorem C8_optimizePath (mems : List (String × ConceptMemory)) (capacity : ℚ)
    (targets : List String)
    (hmem : ∀ e ∈ mems, e.2.memory_strength ≤ 1 ∧ 0 ≤ e.2.difficulty_adjustment) :
    List.Chain' (fun s1 s2 => capacity < s1.cognitive_load + s2.cognitive_load)
      (optimize_learning_path mems capacity targets) ∧
    concatIds (optimize_learning_path mems capacity targets) = (topoSort mems targets).sorted ∧
    (∀ t, t ∈ (topoSort mems targets).sorted ↔ t ∈ targets) ∧
    (topoSort mems targets).sorted.Nodup ∧
    (∀ c p, c ∈ (topoSort mems targets).sorted → p ∈ graphPrereqs mems targets c →
      targets.contains p = true →
      (c, p) ∈ (topoSort mems targets).broken ∨ Before (topoSort mems targets).sorted p c) := by
  obtain ⟨⟨hperm, hnodup, hsubT, hgood⟩, hmemall⟩ := topoSort_spec mems targets
  refine ⟨?_, ?_, ?_, ?_, hgood⟩
  · unfold optimize_learning_path
    refine packGo_chain mems capacity (conceptLoad_nonneg mems hmem) _ [] [] 0
      List.chain'_nil ?_
    intro s hs
    simp at hs
  · unfold optimize_learning_path
    rw [packGo_concat]
    simp [concatIds]
  · intro t
    constructor
    · exact fun h => hsubT t h
    · intro ht
      exact hperm.mem_iff.mpr (hmemall t ht)
  · exact hperm.symm.nodup hnodup

/-- Witness for the amended C8 at the concrete three-concept profile. -/
theorem C8_witness :
    (∀ e ∈ exMems, e.2.memory_strength ≤ 1 ∧ 0 ≤ e.2.difficulty_adjustment) ∧
    List.Chain' (fun s1 s2 => (1:ℚ) < s1.cognitive_load + s2.cognitive_load)
      (optimize_learning_path exMems 1 exTargets) := by
  have h : ∀ e ∈ exMems, e.2.memory_strength ≤ 1 ∧ 0 ≤ e.2.difficulty_adjustment := by
    intro e he
    simp only [exMems, exMem, List.mem_cons, List.not_mem_nil, or_false] at he
    rcases he with rfl | rfl | rfl <;> exact ⟨by norm_num, by norm_num⟩
  exact ⟨h, (C8_optimizePath exMems 1 exTargets h).1⟩

end StudyingCoach
